import Mathlib

/-!
Verification of the Slack / Gemini bridge bot (`app/main.py`).

The development shallowly embeds the bot's two transformation pipelines:
thread-history-to-model-input assembly (`_build_contents_from_thread` and its
helpers `_extract_text`, the mention-stripping regex substitution, and the
per-attachment fetch loop) and model-output-to-chat-output rendering
(`_format_model_response`, `_split_text`, and the empty-chunk substitution in
`handle_mention`).  Python strings are modelled as Lean `String` (a list of
code points), byte strings as `List Nat`, `None`-able fields as `Option`,
and exception-raising code as `Except String`.  External collaborators (the
Slack HTTP content source and the Gemini invocation) are passed in as
oracles, so every definition is executable.
-/

/-- Byte payloads (Python `bytes`): HTTP bodies and encoded images. -/
abbrev Bytes := List Nat

/-- Python truthiness of an `Optional[str]`: `None` and `""` are falsy. -/
def strTruthy : Option String → Bool
  | none => false
  | some s => s != ""

/-! ## `_split_text` (main.py lines 99-103) -/

/-- Embedding of `_split_text` on the underlying character list.
`range(0, len(text), limit)` visits `i * limit` for `i < ceil(len / limit)`,
and `text[i : i + limit]` is `(l.drop i).take limit`; an empty input returns
one empty chunk.  (Python raises for a non-positive step, so the embedding is
meaningful only for `0 < limit`; the program always calls it with 3000.) -/
def splitTextL (l : List Char) (limit : Nat) : List (List Char) :=
  if l.isEmpty then [[]]
  else (List.range ((l.length + limit - 1) / limit)).map
    (fun i => (l.drop (i * limit)).take limit)

/-- Embedding of `_split_text` on `String`. -/
def splitText (text : String) (limit : Nat) : List String :=
  (splitTextL text.data limit).map (fun c => (⟨c⟩ : String))

/-! ## `_format_model_response` (main.py lines 106-125) -/

/-- A segment of a Gemini response (`response.parts` element): `thought` is
the truthiness of the `thought` attribute, `text` the optional text payload,
and `image` models `part.as_image()` followed by `image.save(...)`: `some b`
when the part decodes to an image whose re-encoded bytes are `b`, `none`
when `as_image()` is falsy. -/
structure RespPart where
  thought : Bool
  text : Option String
  image : Option Bytes
deriving DecidableEq

/-- A Gemini response: the ordered segment list `response.parts` plus the
SDK-provided aggregate `response.text` (`none` models `None`). -/
structure ModelResponse where
  parts : List RespPart
  text : Option String
deriving DecidableEq

/-- One step of the segment loop in `_format_model_response`: skip `thought`
segments, collect truthy text into the text-part accumulator, otherwise try
the segment as an image. -/
def formatStep (acc : List String × List Bytes) (part : RespPart) :
    List String × List Bytes :=
  if part.thought then acc
  else if strTruthy part.text then (acc.1 ++ [part.text.getD ""], acc.2)
  else
    match part.image with
    | some img => (acc.1, acc.2 ++ [img])
    | none => acc

/-- Embedding of `_format_model_response`: fold the segment loop, then
`"\n\n".join(text_parts) if text_parts else (response.text or "")`. -/
def formatModelResponse (r : ModelResponse) : String × List Bytes :=
  let acc := r.parts.foldl formatStep ([], [])
  (if acc.1.isEmpty then r.text.getD "" else String.intercalate "\n\n" acc.1,
   acc.2)

/-! ## Empty-chunk substitution (main.py lines 176-177) -/

/-- Embedding of `if all(not chunk for chunk in chunks): chunks = [...]` in
`handle_mention`: when every chunk is empty, one placeholder chunk replaces
the list, chosen by whether any images were rendered. -/
def postprocessChunks (chunks : List String) (images : List Bytes) :
    List String :=
  if chunks.all (fun c => c == "") then
    if images.isEmpty then ["(no response content)"]
    else ["Here are your results from Gemini."]
  else chunks

/-! ## `_extract_text` (main.py lines 33-44) -/

/-- The JSON-ish values `_extract_text` traverses: string scalars, other
scalars (numbers, booleans, `None`), sequences, and mappings (Python dicts
preserve insertion order, so a mapping is an ordered association list; a
Python dict has no duplicate keys, and lookups take the first match). -/
inductive BV where
  | str (s : String)
  | scalar
  | arr (items : List BV)
  | obj (entries : List (String × BV))

/-- First-match association-list lookup, embedding `obj.get(key)`. -/
def getKey (key : String) : List (String × BV) → Option BV
  | [] => none
  | (k, v) :: rest => if k = key then some v else getKey key rest

/-- The `"text"` entry a mapping contributes directly: `t = obj.get("text")`
followed by the `isinstance(t, str)` check. -/
def objOwnText (entries : List (String × BV)) : List String :=
  match getKey "text" entries with
  | some (BV.str s) => [s]
  | _ => []

mutual

/-- Embedding of `_extract_text`: a mapping contributes its own `"text"`
entry first and then recurses into every value (including the `"text"` value
itself), a sequence recurses into every item, scalars contribute nothing. -/
def extractText : BV → List String
  | BV.str _ => []
  | BV.scalar => []
  | BV.arr items => extractTextArr items
  | BV.obj entries => objOwnText entries ++ extractTextKVs entries

/-- The `for v in obj.values()` loop of `_extract_text`. -/
def extractTextKVs : List (String × BV) → List String
  | [] => []
  | (_, v) :: rest => extractText v ++ extractTextKVs rest

/-- The `for item in obj` loop of `_extract_text`. -/
def extractTextArr : List BV → List String
  | [] => []
  | b :: rest => extractText b ++ extractTextArr rest

end

/-! ## Mention stripping (main.py line 60): `re.sub(r"<@[^>]+>\s*", "", text).strip()` -/

/-- Python `\s` on the characters the bot sees (the ASCII whitespace class). -/
def isPySpace (c : Char) : Bool :=
  c = ' ' || c = '\t' || c = '\n' || c = '\r' || c = '\x0b' || c = '\x0c'

/-- Consume greedy `[^>]+>` after the first mandatory non-`>` character has
been checked: return the characters after the first `>`, or `none` when no
`>` follows. -/
def afterGt : List Char → Option (List Char)
  | [] => none
  | c :: rest => if c = '>' then some rest else afterGt rest

/-- Match `[^>]+>` at the head of the list: at least one non-`>` character,
then everything up to and including the first `>`; returns the suffix after
the match. -/
def takeMention : List Char → Option (List Char)
  | [] => none
  | c :: rest => if c = '>' then none else afterGt rest

/-- Whether the regex `<@[^>]+>` matches at the head of the list. -/
def hasLeadingMention : List Char → Bool
  | '<' :: '@' :: rest => (takeMention rest).isSome
  | _ => false

/-- Fuelled embedding of `re.sub(r"<@[^>]+>\s*", "", text)`: scan left to
right; at each position try to match `<@[^>]+>` followed by greedy `\s*`;
on a match drop it and continue after it, otherwise emit the character and
advance one position.  The fuel only forces termination; with
`fuel ≥ l.length` it never runs out. -/
def subMentionsF : Nat → List Char → List Char
  | 0, l => l
  | _ + 1, [] => []
  | fuel + 1, c1 :: rest1 =>
    if c1 = '<' then
      match rest1 with
      | c2 :: rest2 =>
        if c2 = '@' then
          match takeMention rest2 with
          | some r => subMentionsF fuel (r.dropWhile isPySpace)
          | none => c1 :: subMentionsF fuel rest1
        else c1 :: subMentionsF fuel rest1
      | [] => [c1]
    else c1 :: subMentionsF fuel rest1

/-- `re.sub(r"<@[^>]+>\s*", "", text)` on a character list. -/
def subMentions (l : List Char) : List Char :=
  subMentionsF l.length l

/-- Python `str.strip()` on a character list: drop ASCII/Unicode whitespace
from both ends (modelled over the ASCII class). -/
def pyStripL (l : List Char) : List Char :=
  ((l.dropWhile isPySpace).reverse.dropWhile isPySpace).reverse

/-- Python `str.strip()` on `String`. -/
def pyStrip (s : String) : String :=
  (⟨pyStripL s.data⟩ : String)

/-- Embedding of main.py line 60: `re.sub(r"<@[^>]+>\s*", "", text).strip()`. -/
def deriveText (s : String) : String :=
  (⟨pyStripL (subMentions s.data)⟩ : String)

example : deriveText "<@U123> hello" = "hello" := by decide
example : deriveText "a <@U1> b" = "a b" := by decide
example : deriveText " plain " = "plain" := by decide
example : deriveText "<@U1" = "<@U1" := by decide
example :
    extractTextArr
      [BV.obj [("text", BV.str "a")],
       BV.obj [("items", BV.arr [BV.obj [("text", BV.str "b")]])]] =
      ["a", "b"] := by decide

/-! ## `_build_contents_from_thread` (main.py lines 47-96) -/

/-- A google-genai `Part`: `Part.from_text(text=...)` or
`Part.from_bytes(data=..., mime_type=...)`. -/
inductive GPart where
  | text (s : String)
  | bytes (data : Bytes) (mimeType : String)
deriving DecidableEq

/-- A google-genai `Content`: a role ("user" or "model") and its parts. -/
structure Content where
  role : String
  parts : List GPart
deriving DecidableEq

/-- A Slack file descriptor as read by the bot: `f.get("mimetype")` and
`f.get("url_private_download")`. -/
structure SlackFile where
  mimetype : Option String
  url_private_download : Option String
deriving DecidableEq

/-- A successful HTTP response from the attachment content source:
`resp.content` (raw bytes) and `resp.text` (the body decoded by httpx). -/
structure HttpResp where
  content : Bytes
  text : String
deriving DecidableEq

/-- A Slack thread message as read by the bot.  `ts` is the value
`float(m["ts"])`, modelled as an exact rational (parsing is monotone, so
order comparisons agree); the remaining fields are the `msg.get(...)`
lookups the code performs. -/
structure ThreadMessage where
  ts : Rat
  bot_id : Option String
  subtype : Option String
  text : Option String
  blocks : List BV
  files : List SlackFile

/-- `is_bot = bool(msg.get("bot_id") or msg.get("subtype") == "bot_message")`:
a truthy `bot_id` wins, otherwise the subtype comparison decides. -/
def isBot (m : ThreadMessage) : Bool :=
  strTruthy m.bot_id || m.subtype == some "bot_message"

/-- `role = "model" if is_bot else "user"`. -/
def roleOf (m : ThreadMessage) : String :=
  if isBot m then "model" else "user"

/-- Lines 59-62: derive the message's text — mention-stripped raw text, with
the rich-text block extraction (joined by newlines, then stripped) as the
fallback when it is empty. -/
def msgText (m : ThreadMessage) : String :=
  let t := deriveText (m.text.getD "")
  if t = "" then pyStrip (String.intercalate "\n" (extractTextArr m.blocks))
  else t

/-- Python `s.startswith(p)`: the first `len(p)` code points of `s` are
exactly `p`. -/
def pyStartsWith (s p : String) : Bool :=
  List.isPrefixOf p.data s.data

/-- The admission test of lines 73-76:
`mimetype.startswith(("image/", "video/", "audio/", "text/")) or
mimetype == "application/pdf"`. -/
def fileSupported (mimetype : String) : Bool :=
  pyStartsWith mimetype "image/" || pyStartsWith mimetype "video/" ||
    pyStartsWith mimetype "audio/" || pyStartsWith mimetype "text/" ||
    mimetype == "application/pdf"

/-- The per-file body of lines 67-89, parameterised by the fetch oracle
(`http_client.get` + `resp.raise_for_status()`, whose failures — timeout,
transport error, non-2xx — are the `Except.error` case).  A file without a
truthy `url_private_download` is skipped before the admission test; an
unsupported mimetype is skipped; otherwise the fetch runs and the part is
text for `text/*`, binary for everything else. -/
def processFile (fetch : String → Except String HttpResp) (f : SlackFile) :
    Except String (List GPart) :=
  let mimetype := f.mimetype.getD ""
  let url := f.url_private_download.getD ""
  if url = "" then .ok []
  else if fileSupported mimetype then
    match fetch url with
    | .error e => .error e
    | .ok resp =>
      if pyStartsWith mimetype "text/" then .ok [GPart.text resp.text]
      else .ok [GPart.bytes resp.content mimetype]
  else .ok []

/-- The `for f in msg.get("files", [])` loop: files in order, first fetch
failure aborts (the exception propagates out of the whole assembly). -/
def processFiles (fetch : String → Except String HttpResp) :
    List SlackFile → Except String (List GPart)
  | [] => .ok []
  | f :: rest =>
    match processFile fetch f with
    | .error e => .error e
    | .ok ps =>
      match processFiles fetch rest with
      | .error e => .error e
      | .ok rps => .ok (ps ++ rps)

/-- Lines 57-89 for one message: the text part (emitted only when the
derived text is non-empty) followed by the attachment parts. -/
def msgParts (fetch : String → Except String HttpResp) (m : ThreadMessage) :
    Except String (List GPart) :=
  let tps : List GPart := if msgText m = "" then [] else [GPart.text (msgText m)]
  match processFiles fetch m.files with
  | .error e => .error e
  | .ok fps => .ok (tps ++ fps)

/-- Stable insertion into a ts-sorted list: the new element goes before the
first incumbent whose key is not strictly smaller, so, among equal keys, an
element inserted later in the fold (i.e. earlier in the original list) stays
in front. -/
def insertTs (m : ThreadMessage) : List ThreadMessage → List ThreadMessage
  | [] => [m]
  | x :: xs => if x.ts < m.ts then x :: insertTs m xs else m :: x :: xs

/-- Embedding of `sorted(history["messages"], key=lambda m: float(m["ts"]))`:
Python's `sorted` is specified as a stable ascending sort by key, realised
here as a stable insertion sort (proved sorted, stable and a permutation
below, which pins the result down uniquely). -/
def sortMsgs : List ThreadMessage → List ThreadMessage
  | [] => []
  | m :: rest => insertTs m (sortMsgs rest)

/-- The message loop of lines 54-92 over an already-sorted list: build each
message's parts (aborting on a fetch failure) and keep a `Content` exactly
when the part list is non-empty. -/
def buildCoreAux (fetch : String → Except String HttpResp) :
    List ThreadMessage → Except String (List Content)
  | [] => .ok []
  | m :: rest =>
    match msgParts fetch m with
    | .error e => .error e
    | .ok ps =>
      match buildCoreAux fetch rest with
      | .error e => .error e
      | .ok cs => .ok (if ps.isEmpty then cs else ⟨roleOf m, ps⟩ :: cs)

/-- Lines 54-92: sort by timestamp, then run the message loop. -/
def buildCore (fetch : String → Except String HttpResp)
    (msgs : List ThreadMessage) : Except String (List Content) :=
  buildCoreAux fetch (sortMsgs msgs)

/-- Embedding of `_build_contents_from_thread` given the already-fetched
thread history: lines 54-96, including the `(no content)` fallback of lines
94-95. -/
def buildContents (fetch : String → Except String HttpResp)
    (msgs : List ThreadMessage) : Except String (List Content) :=
  match buildCore fetch msgs with
  | .error e => .error e
  | .ok cs =>
    if cs.isEmpty then .ok [⟨"user", [GPart.text "(no content)"]⟩]
    else .ok cs

/-! ## `handle_mention` orchestration (main.py lines 128-198) -/

/-- What `handle_mention` hands to the delivery collaborator: the text
chunks posted via `say` (first chunk, then the rest) and the image payloads
uploaded via `files_upload_v2`. -/
structure Delivery where
  chunks : List String
  images : List Bytes
deriving DecidableEq

/-- Embedding of `handle_mention` after the ack, parameterised by the fetch
oracle and the Gemini invocation oracle.  `_build_contents_from_thread` is
called outside the `try` block, so its failure propagates
(`Except.error`); only the Gemini call (and response formatting) sits inside
`try`, whose `except` turns the failure into the reply text
`"Error from Gemini: ..."` with no images.  The chunk split (limit 3000) and
the empty-chunk substitution then produce the delivered value. -/
def handleMention (fetch : String → Except String HttpResp)
    (invoke : List Content → Except String ModelResponse)
    (msgs : List ThreadMessage) : Except String Delivery :=
  match buildContents fetch msgs with
  | .error e => .error e
  | .ok contents =>
    let rendered : String × List Bytes :=
      match invoke contents with
      | .ok resp => formatModelResponse resp
      | .error e => ("Error from Gemini: " ++ e, [])
    .ok ⟨postprocessChunks (splitText rendered.1 3000) rendered.2, rendered.2⟩

example :
    processFiles (fun _ => .error "down")
      [⟨some "application/zip", some "u1"⟩, ⟨some "image/png", none⟩] =
      .ok [] := by rfl
example :
    processFiles (fun u => .ok ⟨[7], "body:" ++ u⟩)
      [⟨some "image/png", some "u1"⟩, ⟨some "text/plain", some "u2"⟩] =
      .ok [GPart.bytes [7] "image/png", GPart.text "body:u2"] := by rfl
example :
    buildContents (fun _ => .error "down")
      [⟨2, none, none, some "b", [], []⟩,
       ⟨1, some "B1", none, some "<@U9> a", [], []⟩] =
      .ok [⟨"model", [GPart.text "a"]⟩, ⟨"user", [GPart.text "b"]⟩] := by rfl
example :
    buildContents (fun _ => .error "down") [] =
      .ok [⟨"user", [GPart.text "(no content)"]⟩] := by rfl
example :
    handleMention (fun _ => .error "boom") (fun _ => .ok ⟨[], none⟩)
      [⟨1, none, none, some "hi", [], [⟨some "image/png", some "u"⟩]⟩] =
      .error "boom" := by rfl

example : splitText "abcde" 2 = ["ab", "cd", "e"] := by decide
example : splitText "" 5 = [""] := by decide
example :
    formatModelResponse
      ⟨[⟨true, some "t", none⟩, ⟨false, some "a", none⟩,
        ⟨false, none, some [1, 2]⟩, ⟨false, some "b", none⟩], none⟩ =
      ("a\n\nb", [[1, 2]]) := by decide
example : postprocessChunks ["", ""] [] = ["(no response content)"] := by decide

/-! ## Helper lemmas about `String.mk` and joining -/

theorem stringMk_length (c : List Char) : (⟨c⟩ : String).length = c.length := rfl

theorem foldl_append_mk (ls : List (List Char)) :
    ∀ acc : List Char,
      List.foldl (fun r s => r ++ s) ((⟨acc⟩ : String)) (ls.map fun c => (⟨c⟩ : String)) =
        (⟨acc ++ ls.flatten⟩ : String) := by
  induction ls with
  | nil => intro acc; simp
  | cons a rest ih =>
    intro acc
    simp only [List.map_cons, List.foldl_cons, List.flatten_cons]
    have h1 : ((⟨acc⟩ : String) ++ (⟨a⟩ : String)) = (⟨acc ++ a⟩ : String) := rfl
    rw [h1, ih, List.append_assoc]

theorem join_map_mk (ls : List (List Char)) :
    String.join (ls.map fun c => (⟨c⟩ : String)) = (⟨ls.flatten⟩ : String) := by
  have h := foldl_append_mk ls []
  simpa [String.join] using h

/-! ## C3 helper lemmas -/

theorem le_ceilDiv_mul (L N : Nat) (hN : 0 < N) : L ≤ (L + N - 1) / N * N := by
  cases L with
  | zero => simp
  | succ L' =>
    have h1 : L' + 1 + N - 1 = L' + N := by omega
    rw [h1, Nat.add_div_right L' hN, Nat.succ_mul, Nat.mul_comm]
    have h2 := Nat.div_add_mod L' N
    have h3 := Nat.mod_lt L' hN
    omega

theorem range_chunks_flatten (N : Nat) :
    ∀ (K : Nat) (l : List Char), l.length ≤ K * N →
      ((List.range K).map (fun i => (l.drop (i * N)).take N)).flatten = l := by
  intro K
  induction K with
  | zero =>
    intro l h
    have hl : l = [] := List.eq_nil_of_length_eq_zero (Nat.le_zero.mp (by simpa using h))
    subst hl; simp
  | succ K ih =>
    intro l h
    rw [List.range_succ_eq_map]
    simp only [List.map_cons, List.map_map, List.flatten_cons, Nat.zero_mul,
      List.drop_zero]
    have hmap :
        (List.range K).map ((fun i => (l.drop (i * N)).take N) ∘ Nat.succ) =
          (List.range K).map (fun i => ((l.drop N).drop (i * N)).take N) := by
      apply List.map_congr_left
      intro i _
      simp only [Function.comp]
      rw [List.drop_drop, Nat.succ_mul, Nat.add_comm]
    rw [hmap, ih (l.drop N) (by
      rw [List.length_drop]
      rw [Nat.succ_mul] at h
      omega)]
    exact List.take_append_drop N l

theorem nonlast_chunk_full (L N i : Nat) (hN : 0 < N) (hL : 0 < L)
    (hi : i + 1 < (L + N - 1) / N) : i * N + N ≤ L := by
  obtain ⟨L', rfl⟩ : ∃ L', L = L' + 1 := ⟨L - 1, by omega⟩
  have h1 : L' + 1 + N - 1 = L' + N := by omega
  rw [h1, Nat.add_div_right L' hN] at hi
  have h2 : i + 1 ≤ L' / N := by omega
  have h3 := Nat.mul_le_mul_right N h2
  rw [Nat.succ_mul] at h3
  have h4 := Nat.div_mul_le_self L' N
  omega

/-- C3: for every string of length `L` and positive chunk limit `N`,
`_split_text` produces exactly `ceil(L / N)` chunks for non-empty input (and
exactly one empty chunk for the empty input), in order, each chunk at most
`N` characters with every chunk but the last exactly `N`, and concatenating
the chunks reproduces the original string. -/
theorem split_text_spec (s : String) (N : Nat) (hN : 0 < N) :
    ((splitText s N).length = if s.length = 0 then 1 else (s.length + N - 1) / N)
    ∧ (∀ c ∈ splitText s N, c.length ≤ N)
    ∧ (∀ i : Nat, i + 1 < (splitText s N).length →
        ((splitText s N).getD i "").length = N)
    ∧ String.join (splitText s N) = s
    ∧ splitText "" N = [""] := by
  obtain ⟨l⟩ := s
  have h5 : splitText "" N = [""] := rfl
  by_cases hl : l = []
  · subst hl
    refine ⟨by simp [splitText, splitTextL, stringMk_length], ?_, ?_, ?_, h5⟩
    · intro c hc
      simp only [splitText, splitTextL, List.isEmpty_nil, if_pos, List.map_cons,
        List.map_nil, List.mem_singleton] at hc
      subst hc
      simp [stringMk_length]
    · intro i hi
      have h1 : (splitText (⟨[]⟩ : String) N).length = 1 := rfl
      rw [h1] at hi
      exact absurd hi (by omega)
    · rw [splitText, join_map_mk]
      simp [splitTextL]
  · have hlen : l.length ≠ 0 := by simpa [List.length_eq_zero] using hl
    have hne : l.isEmpty = false := by simpa [List.isEmpty_iff] using hl
    have hsp : splitTextL l N =
        (List.range ((l.length + N - 1) / N)).map (fun i => (l.drop (i * N)).take N) := by
      simp [splitTextL, hne]
    refine ⟨?_, ?_, ?_, ?_, h5⟩
    · simp [splitText, hsp, stringMk_length, hlen]
    · intro c hc
      simp only [splitText, hsp, List.map_map, List.mem_map] at hc
      obtain ⟨i, _, rfl⟩ := hc
      simp only [Function.comp]
      rw [stringMk_length, List.length_take]
      exact Nat.min_le_left _ _
    · intro i hi
      have hlen2 : (splitText (⟨l⟩ : String) N).length = (l.length + N - 1) / N := by
        simp [splitText, hsp]
      rw [hlen2] at hi
      have hib : i < (splitText (⟨l⟩ : String) N).length := by rw [hlen2]; omega
      have hfull := nonlast_chunk_full l.length N i hN (by omega) hi
      rw [List.getD_eq_getElem _ _ hib]
      simp only [splitText, hsp, List.map_map, List.getElem_map,
        List.getElem_range, Function.comp]
      rw [stringMk_length, List.length_take, List.length_drop]
      omega
    · rw [splitText, join_map_mk]
      rw [hsp, range_chunks_flatten N _ l (le_ceilDiv_mul l.length N hN)]

/-- Witness for C3 at the concrete input `"abcde"` with limit 2. -/
theorem split_text_spec_witness :
    0 < 2
    ∧ (((splitText "abcde" 2).length =
          if "abcde".length = 0 then 1 else ("abcde".length + 2 - 1) / 2)
      ∧ (∀ c ∈ splitText "abcde" 2, c.length ≤ 2)
      ∧ (∀ i : Nat, i + 1 < (splitText "abcde" 2).length →
          ((splitText "abcde" 2).getD i "").length = 2)
      ∧ String.join (splitText "abcde" 2) = "abcde"
      ∧ splitText "" 2 = [""]) :=
  ⟨by decide, split_text_spec "abcde" 2 (by decide)⟩

/-! ## C4: thought suppression in `_format_model_response` -/

theorem formatStep_thought (acc : List String × List Bytes) (p : RespPart)
    (h : p.thought = true) : formatStep acc p = acc := by
  simp [formatStep, h]

theorem foldl_formatStep_filter (ps : List RespPart) :
    ∀ acc, ps.foldl formatStep acc =
      (ps.filter (fun p => !p.thought)).foldl formatStep acc := by
  induction ps with
  | nil => intro acc; rfl
  | cons p rest ih =>
    intro acc
    by_cases hp : p.thought = true
    · rw [List.foldl_cons, formatStep_thought acc p hp, ih]
      have hf : (p :: rest).filter (fun p => !p.thought) =
          rest.filter (fun p => !p.thought) := by
        simp [List.filter_cons, hp]
      rw [hf]
    · rw [List.foldl_cons, ih]
      have hf : (p :: rest).filter (fun p => !p.thought) =
          p :: rest.filter (fun p => !p.thought) := by
        simp [List.filter_cons, hp]
      rw [hf, List.foldl_cons]

/-- C4: segments tagged as thoughts never reach the output (rendering a
response equals rendering it with all thought segments removed), text
segments are joined with a blank line in emission order and image segments
are collected in order: the segment sequence thought, text "a", image X,
text "b" renders to `"a\n\nb"` with image list `[X]`. -/
theorem format_response_spec :
    (∀ r : ModelResponse,
      formatModelResponse r =
        formatModelResponse ⟨r.parts.filter (fun p => !p.thought), r.text⟩)
    ∧ formatModelResponse
        ⟨[⟨true, some "think", none⟩, ⟨false, some "a", none⟩,
          ⟨false, none, some [9, 9]⟩, ⟨false, some "b", none⟩], none⟩ =
        ("a\n\nb", [[9, 9]]) := by
  constructor
  · intro r
    simp only [formatModelResponse]
    rw [foldl_formatStep_filter]
  · rfl

/-! ## C9: all-empty chunk substitution in `handle_mention` -/

/-- C9: if every rendered text chunk is empty, the caller substitutes a
single non-empty placeholder chunk — a note that image results are attached
when images are present, otherwise a no-content note — and the image list
flows to delivery unchanged. -/
theorem all_empty_substitution (chunks : List String) (images : List Bytes)
    (h : ∀ c ∈ chunks, c = "") :
    (postprocessChunks chunks images).length = 1
    ∧ (∀ c ∈ postprocessChunks chunks images, c ≠ "")
    ∧ (images = [] → postprocessChunks chunks images = ["(no response content)"])
    ∧ (images ≠ [] →
        postprocessChunks chunks images = ["Here are your results from Gemini."])
    ∧ (∀ fetch invoke msgs contents resp,
        buildContents fetch msgs = Except.ok contents →
        invoke contents = Except.ok resp →
        handleMention fetch invoke msgs =
          Except.ok
            ⟨postprocessChunks (splitText (formatModelResponse resp).1 3000)
                (formatModelResponse resp).2,
              (formatModelResponse resp).2⟩) := by
  have hall : chunks.all (fun c => c == "") = true := by
    rw [List.all_eq_true]
    intro c hc
    simpa using h c hc
  have hpass : ∀ fetch invoke msgs contents resp,
      buildContents fetch msgs = Except.ok contents →
      invoke contents = Except.ok resp →
      handleMention fetch invoke msgs =
        Except.ok
          ⟨postprocessChunks (splitText (formatModelResponse resp).1 3000)
              (formatModelResponse resp).2,
            (formatModelResponse resp).2⟩ := by
    intro fetch invoke msgs contents resp h1 h2
    simp only [handleMention, h1, h2]
  cases images with
  | nil =>
    have hres : postprocessChunks chunks [] = ["(no response content)"] := by
      simp [postprocessChunks, hall]
    refine ⟨by rw [hres]; rfl, ?_, fun _ => hres, fun hne => absurd rfl hne, hpass⟩
    intro c hc
    rw [hres] at hc
    simp only [List.mem_singleton] at hc
    subst hc
    decide
  | cons b bs =>
    have hres : postprocessChunks chunks (b :: bs) =
        ["Here are your results from Gemini."] := by
      simp [postprocessChunks, hall]
    refine ⟨by rw [hres]; rfl, ?_, fun heq => by simp at heq, fun _ => hres, hpass⟩
    intro c hc
    rw [hres] at hc
    simp only [List.mem_singleton] at hc
    subst hc
    decide

/-- Witness for C9 at the concrete chunks `["", ""]` with no images. -/
theorem all_empty_substitution_witness :
    (∀ c ∈ (["", ""] : List String), c = "")
    ∧ ((postprocessChunks ["", ""] []).length = 1
      ∧ (∀ c ∈ postprocessChunks ["", ""] [], c ≠ "")
      ∧ (([] : List Bytes) = [] →
          postprocessChunks ["", ""] [] = ["(no response content)"])
      ∧ (([] : List Bytes) ≠ [] →
          postprocessChunks ["", ""] [] = ["Here are your results from Gemini."])
      ∧ (∀ fetch invoke msgs contents resp,
          buildContents fetch msgs = Except.ok contents →
          invoke contents = Except.ok resp →
          handleMention fetch invoke msgs =
            Except.ok
              ⟨postprocessChunks (splitText (formatModelResponse resp).1 3000)
                  (formatModelResponse resp).2,
                (formatModelResponse resp).2⟩)) :=
  ⟨by decide, all_empty_substitution ["", ""] [] (by decide)⟩

/-! ## C2: mention stripping -/

theorem subMentionsF_id (fuel : Nat) : ∀ l : List Char, l.length ≤ fuel →
    (∀ t ∈ l.tails, hasLeadingMention t = false) → subMentionsF fuel l = l := by
  induction fuel with
  | zero =>
    intro l h1 h2
    rfl
  | succ fuel ih =>
    intro l h1 h2
    cases l with
    | nil => rfl
    | cons c1 rest1 =>
      have hhead : hasLeadingMention (c1 :: rest1) = false :=
        h2 _ ((List.mem_tails _ _).mpr (List.suffix_refl _))
      have hrest : ∀ t ∈ rest1.tails, hasLeadingMention t = false := by
        intro t ht
        exact h2 t
          ((List.mem_tails _ _).mpr
            (((List.mem_tails _ _).mp ht).trans (List.suffix_cons c1 rest1)))
      have hlen : rest1.length ≤ fuel := by
        simp only [List.length_cons] at h1
        omega
      by_cases hc1 : c1 = '<'
      · subst hc1
        cases rest1 with
        | nil => rfl
        | cons c2 rest2 =>
          by_cases hc2 : c2 = '@'
          · subst hc2
            have htm : takeMention rest2 = none := by
              rw [hasLeadingMention] at hhead
              cases h : takeMention rest2 with
              | none => rfl
              | some r => rw [h] at hhead; simp at hhead
            simp only [subMentionsF, htm, if_pos]
            rw [ih _ hlen hrest]
          · simp only [subMentionsF, if_pos, if_neg hc2]
            rw [ih _ hlen hrest]
      · simp only [subMentionsF, if_neg hc1]
        rw [ih _ hlen hrest]

/-- C2 counterexample: the input `"a <@U1> b"` has no leading mention token,
yet the code's derivation (a global `re.sub` of every mention plus a final
`strip`) changes it to `"a b"` — contradicting "for every input text
containing no leading mention token, the derived text equals the input
unchanged". -/
theorem mention_stripping_counterexample :
    hasLeadingMention ("a <@U1> b").data = false
    ∧ deriveText "a <@U1> b" ≠ "a <@U1> b"
    ∧ deriveText "a <@U1> b" = "a b" := by decide

/-- C2 (amended): the derivation removes every mention token together with
its trailing whitespace wherever it appears (not only at the start), and
strips leading/trailing whitespace from the result; `"<@U123> hello"`
derives to `"hello"`, and any input containing no mention token anywhere
derives to itself stripped of surrounding whitespace. -/
theorem mention_stripping_amended (s : String)
    (h : ∀ t ∈ s.data.tails, hasLeadingMention t = false) :
    deriveText s = pyStrip s
    ∧ deriveText "<@U123> hello" = "hello"
    ∧ deriveText "a <@U1> b" = "a b" := by
  refine ⟨?_, by decide, by decide⟩
  unfold deriveText pyStrip subMentions
  rw [subMentionsF_id _ _ le_rfl h]

/-- Witness for the amended C2 at the mention-free input `" hi "`. -/
theorem mention_stripping_amended_witness :
    (∀ t ∈ (" hi " : String).data.tails, hasLeadingMention t = false)
    ∧ (deriveText " hi " = pyStrip " hi "
      ∧ deriveText "<@U123> hello" = "hello"
      ∧ deriveText "a <@U1> b" = "a b") :=
  ⟨by decide, mention_stripping_amended " hi " (by decide)⟩

/-! ## C7: rich-text fallback extraction -/

/-- C7 counterexample: for a message with empty raw text whose blocks hold
the single text field `" a "`, the code derives `"a"` — the newline-join of
the extracted fields additionally passes through `strip()`, so the derived
text is not the plain join the claim describes. -/
theorem fallback_extraction_counterexample :
    deriveText ((none : Option String).getD "") = ""
    ∧ msgText ⟨1, none, none, none, [BV.obj [("text", BV.str " a ")]], []⟩ = "a"
    ∧ String.intercalate "\n"
        (extractTextArr [BV.obj [("text", BV.str " a ")]]) = " a "
    ∧ msgText ⟨1, none, none, none, [BV.obj [("text", BV.str " a ")]], []⟩ ≠
        String.intercalate "\n"
          (extractTextArr [BV.obj [("text", BV.str " a ")]]) := by decide

/-- C7 (amended): for every message whose derived raw text is empty, the
text falls back to recursively extracting every "text" field from the
nested block structure, joined with newlines and then stripped of
leading/trailing whitespace; blocks
`[{"text": "a"}, {"items": [{"text": "b"}]}]` yield `"a\nb"`. -/
theorem fallback_extraction_amended (m : ThreadMessage)
    (h : deriveText (m.text.getD "") = "") :
    msgText m = pyStrip (String.intercalate "\n" (extractTextArr m.blocks))
    ∧ msgText ⟨1, none, none, some "",
        [BV.obj [("text", BV.str "a")],
         BV.obj [("items", BV.arr [BV.obj [("text", BV.str "b")]])]], []⟩ =
        "a\nb" := by
  refine ⟨?_, by decide⟩
  simp only [msgText]
  rw [h]
  simp

/-- Witness for the amended C7 at a concrete message with empty raw text. -/
theorem fallback_extraction_amended_witness :
    deriveText ((some "").getD "") = ""
    ∧ (msgText ⟨1, none, none, some "", [BV.obj [("text", BV.str "x")]], []⟩ =
        pyStrip (String.intercalate "\n"
          (extractTextArr [BV.obj [("text", BV.str "x")]]))
      ∧ msgText ⟨1, none, none, some "",
          [BV.obj [("text", BV.str "a")],
           BV.obj [("items", BV.arr [BV.obj [("text", BV.str "b")]])]], []⟩ =
          "a\nb") :=
  ⟨by decide,
    fallback_extraction_amended
      ⟨1, none, none, some "", [BV.obj [("text", BV.str "x")]], []⟩ (by decide)⟩

/-! ## C5: attachment admission -/

theorem processFile_unsupported (fetch : String → Except String HttpResp)
    (f : SlackFile) (url : String)
    (hurl : f.url_private_download = some url) (hu : url ≠ "")
    (hsup : fileSupported (f.mimetype.getD "") = false) :
    processFile fetch f = Except.ok [] := by
  unfold processFile
  rw [hurl]
  simp [hu, hsup]

theorem processFile_fetched (fetch : String → Except String HttpResp)
    (f : SlackFile) (url : String) (resp : HttpResp)
    (hurl : f.url_private_download = some url) (hu : url ≠ "")
    (hsup : fileSupported (f.mimetype.getD "") = true)
    (hfetch : fetch url = Except.ok resp) :
    processFile fetch f =
      Except.ok
        (if pyStartsWith (f.mimetype.getD "") "text/" then [GPart.text resp.text]
          else [GPart.bytes resp.content (f.mimetype.getD "")]) := by
  unfold processFile
  rw [hurl]
  by_cases ht : pyStartsWith (f.mimetype.getD "") "text/" = true <;>
    simp [hu, hsup, hfetch, ht]

theorem processFiles_cons_ok (fetch : String → Except String HttpResp)
    (f : SlackFile) (rest : List SlackFile) (ps : List GPart)
    (h : processFile fetch f = Except.ok ps) :
    processFiles fetch (f :: rest) =
      (processFiles fetch rest).map (fun rps => ps ++ rps) := by
  simp only [processFiles, h]
  cases hr : processFiles fetch rest <;> simp [Except.map]

/-- C5: an attachment descriptor is admitted iff its declared media type
begins with image/, video/, audio/ or text/, or equals exactly
application/pdf; a non-admitted descriptor is skipped silently with no fetch
and no error; an admitted text/* descriptor becomes a text part holding the
decoded body; every other admitted descriptor becomes a binary part holding
the raw bytes and the declared media type. -/
theorem attachment_admission (fetch : String → Except String HttpResp)
    (f : SlackFile) (rest : List SlackFile) (url : String) (resp : HttpResp)
    (hurl : f.url_private_download = some url) (hu : url ≠ "")
    (hfetch : fetch url = Except.ok resp) :
    (fileSupported (f.mimetype.getD "") = true ↔
      (pyStartsWith (f.mimetype.getD "") "image/" = true
        ∨ pyStartsWith (f.mimetype.getD "") "video/" = true
        ∨ pyStartsWith (f.mimetype.getD "") "audio/" = true
        ∨ pyStartsWith (f.mimetype.getD "") "text/" = true
        ∨ f.mimetype.getD "" = "application/pdf"))
    ∧ (fileSupported (f.mimetype.getD "") = false →
        processFiles fetch (f :: rest) = processFiles fetch rest)
    ∧ (pyStartsWith (f.mimetype.getD "") "text/" = true →
        processFiles fetch (f :: rest) =
          (processFiles fetch rest).map (fun ps => GPart.text resp.text :: ps))
    ∧ (fileSupported (f.mimetype.getD "") = true →
        pyStartsWith (f.mimetype.getD "") "text/" = false →
        processFiles fetch (f :: rest) =
          (processFiles fetch rest).map
            (fun ps => GPart.bytes resp.content (f.mimetype.getD "") :: ps)) := by
  refine ⟨?_, ?_, ?_, ?_⟩
  · simp only [fileSupported, Bool.or_eq_true, beq_iff_eq]
    tauto
  · intro hsup
    rw [processFiles_cons_ok fetch f rest []
      (processFile_unsupported fetch f url hurl hu hsup)]
    cases hr : processFiles fetch rest <;> simp [Except.map]
  · intro htext
    have hsup : fileSupported (f.mimetype.getD "") = true := by
      simp [fileSupported, htext]
    rw [processFiles_cons_ok fetch f rest [GPart.text resp.text]
      (by rw [processFile_fetched fetch f url resp hurl hu hsup hfetch, htext]; simp)]
    cases hr : processFiles fetch rest <;> simp [Except.map]
  · intro hsup htext
    rw [processFiles_cons_ok fetch f rest
      [GPart.bytes resp.content (f.mimetype.getD "")]
      (by rw [processFile_fetched fetch f url resp hurl hu hsup hfetch, htext]; simp)]
    cases hr : processFiles fetch rest <;> simp [Except.map]

/-- A concrete fetch oracle used by witnesses: every URL succeeds with body
bytes `[5]` decoding to `"hello"`. -/
def fetchHello : String → Except String HttpResp :=
  fun _ => Except.ok ⟨[5], "hello"⟩

/-- Witness for C5 at a concrete text/plain descriptor and a fetch oracle
returning body `"hello"`. -/
theorem attachment_admission_witness :
    (⟨some "text/plain", some "u"⟩ : SlackFile).url_private_download = some "u"
    ∧ ("u" : String) ≠ ""
    ∧ fetchHello "u" = Except.ok ⟨[5], "hello"⟩
    ∧ (pyStartsWith ((⟨some "text/plain", some "u"⟩ : SlackFile).mimetype.getD "")
          "text/" = true →
        processFiles fetchHello ((⟨some "text/plain", some "u"⟩ : SlackFile) :: []) =
          (processFiles fetchHello []).map (fun ps => GPart.text "hello" :: ps)) :=
  ⟨rfl, by decide, rfl,
    (attachment_admission fetchHello ⟨some "text/plain", some "u"⟩ [] "u"
      ⟨[5], "hello"⟩ rfl (by decide) rfl).2.2.1⟩

/-! ## C10: descriptors without a download URL -/

/-- C10: an attachment descriptor lacking a truthy `url_private_download` is
skipped before the admission test is consulted — no fetch is attempted (the
result is `ok []` for every oracle, including an always-failing one), no
failure is raised, and the loop continues with the remaining attachments,
whatever the declared media type. -/
theorem missing_url_skip (fetch : String → Except String HttpResp)
    (f : SlackFile) (rest : List SlackFile)
    (h : f.url_private_download.getD "" = "") :
    processFile fetch f = Except.ok []
    ∧ processFiles fetch (f :: rest) = processFiles fetch rest := by
  have h1 : processFile fetch f = Except.ok [] := by
    unfold processFile
    rw [h]
    simp
  refine ⟨h1, ?_⟩
  simp only [processFiles, h1]
  cases hr : processFiles fetch rest <;> simp

/-- Witness for C10: an admitted image type with a missing URL, under an
always-failing fetch oracle, is skipped without error. -/
theorem missing_url_skip_witness :
    (⟨some "image/png", none⟩ : SlackFile).url_private_download.getD "" = ""
    ∧ (processFile (fun _ => Except.error "down") ⟨some "image/png", none⟩ =
          Except.ok []
      ∧ processFiles (fun _ => Except.error "down")
            ((⟨some "image/png", none⟩ : SlackFile) ::
              [⟨some "image/png", some "u"⟩]) =
          processFiles (fun _ => Except.error "down")
            [⟨some "image/png", some "u"⟩]) :=
  ⟨by decide,
    missing_url_skip (fun _ => Except.error "down") ⟨some "image/png", none⟩
      [⟨some "image/png", some "u"⟩] (by decide)⟩

/-! ## C6: ordering invariant of the assembled turns -/

theorem insertTs_perm (m : ThreadMessage) :
    ∀ l : List ThreadMessage, (insertTs m l).Perm (m :: l) := by
  intro l
  induction l with
  | nil => exact List.Perm.refl _
  | cons x xs ih =>
    by_cases hx : x.ts < m.ts
    · simp only [insertTs, if_pos hx]
      exact (ih.cons x).trans (List.Perm.swap m x xs)
    · simp only [insertTs, if_neg hx]
      exact List.Perm.refl _

theorem sortMsgs_perm : ∀ l : List ThreadMessage, (sortMsgs l).Perm l := by
  intro l
  induction l with
  | nil => exact List.Perm.refl _
  | cons m rest ih =>
    exact (insertTs_perm m (sortMsgs rest)).trans (ih.cons m)

theorem insertTs_sorted (m : ThreadMessage) :
    ∀ l : List ThreadMessage, List.Pairwise (fun a b => a.ts ≤ b.ts) l →
      List.Pairwise (fun a b => a.ts ≤ b.ts) (insertTs m l) := by
  intro l
  induction l with
  | nil =>
    intro _
    simp [insertTs]
  | cons x xs ih =>
    intro h
    rcases List.pairwise_cons.mp h with ⟨hx, hxs⟩
    by_cases hlt : x.ts < m.ts
    · simp only [insertTs, if_pos hlt]
      rw [List.pairwise_cons]
      refine ⟨?_, ih hxs⟩
      intro b hb
      rcases List.mem_cons.mp ((insertTs_perm m xs).mem_iff.mp hb) with rfl | hbxs
      · exact le_of_lt hlt
      · exact hx b hbxs
    · simp only [insertTs, if_neg hlt]
      rw [List.pairwise_cons]
      refine ⟨?_, h⟩
      intro b hb
      rcases List.mem_cons.mp hb with hbx | hbxs
      · subst hbx
        exact not_lt.mp hlt
      · exact le_trans (not_lt.mp hlt) (hx b hbxs)

theorem sortMsgs_sorted : ∀ l : List ThreadMessage,
    List.Pairwise (fun a b => a.ts ≤ b.ts) (sortMsgs l) := by
  intro l
  induction l with
  | nil => simp [sortMsgs]
  | cons m rest ih => exact insertTs_sorted m (sortMsgs rest) ih

theorem insertTs_filter (m : ThreadMessage) (t : Rat) :
    ∀ l : List ThreadMessage,
      (insertTs m l).filter (fun x => decide (x.ts = t)) =
        if m.ts = t then m :: l.filter (fun x => decide (x.ts = t))
        else l.filter (fun x => decide (x.ts = t)) := by
  intro l
  induction l with
  | nil =>
    by_cases hm : m.ts = t <;> simp [insertTs, List.filter, hm]
  | cons x xs ih =>
    by_cases hlt : x.ts < m.ts
    · simp only [insertTs, if_pos hlt]
      by_cases hx : x.ts = t
      · by_cases hm : m.ts = t
        · exact absurd (hx.trans hm.symm) (ne_of_lt hlt)
        · simp [List.filter_cons, hx, hm, ih]
      · simp [List.filter_cons, hx, ih]
    · simp only [insertTs, if_neg hlt]
      by_cases hm : m.ts = t
      · simp [List.filter_cons, hm]
      · simp [List.filter_cons, hm]

theorem sortMsgs_filter (t : Rat) : ∀ l : List ThreadMessage,
    (sortMsgs l).filter (fun x => decide (x.ts = t)) =
      l.filter (fun x => decide (x.ts = t)) := by
  intro l
  induction l with
  | nil => rfl
  | cons m rest ih =>
    show (insertTs m (sortMsgs rest)).filter (fun x => decide (x.ts = t)) = _
    rw [insertTs_filter, List.filter_cons]
    by_cases hm : m.ts = t <;> simp [hm, ih]

theorem buildCoreAux_ok (fetch : String → Except String HttpResp) :
    ∀ (l : List ThreadMessage) (cs : List Content),
      buildCoreAux fetch l = Except.ok cs →
      cs = l.filterMap (fun m =>
        match msgParts fetch m with
        | Except.ok ps => if ps.isEmpty then none else some ⟨roleOf m, ps⟩
        | Except.error _ => none) := by
  intro l
  induction l with
  | nil =>
    intro cs h
    simp only [buildCoreAux, Except.ok.injEq] at h
    subst h
    rfl
  | cons m rest ih =>
    intro cs h
    simp only [buildCoreAux] at h
    cases hm : msgParts fetch m with
    | error e => rw [hm] at h; simp at h
    | ok ps =>
      rw [hm] at h
      cases hr : buildCoreAux fetch rest with
      | error e => rw [hr] at h; simp at h
      | ok cs2 =>
        rw [hr] at h
        simp only [Except.ok.injEq] at h
        subst h
        rw [List.filterMap_cons]
        simp only [hm]
        by_cases hps : ps.isEmpty
        · simp [hps, ih cs2 hr]
        · simp [hps, ih cs2 hr]

/-- C6: when assembly succeeds, the assembled turn sequence is exactly the
messages sorted by ascending timestamp, restricted (in that order) to the
messages that produced a non-empty part list; the sort is a permutation of
the input, sorted by `ts`, and stable — messages sharing a timestamp keep
their original fetch order. -/
theorem ordering_invariant (fetch : String → Except String HttpResp)
    (msgs : List ThreadMessage) (cs : List Content)
    (h : buildCore fetch msgs = Except.ok cs) :
    cs = (sortMsgs msgs).filterMap (fun m =>
        match msgParts fetch m with
        | Except.ok ps => if ps.isEmpty then none else some ⟨roleOf m, ps⟩
        | Except.error _ => none)
    ∧ (sortMsgs msgs).Perm msgs
    ∧ List.Pairwise (fun a b => a.ts ≤ b.ts) (sortMsgs msgs)
    ∧ (∀ t : Rat, (sortMsgs msgs).filter (fun x => decide (x.ts = t)) =
        msgs.filter (fun x => decide (x.ts = t))) :=
  ⟨buildCoreAux_ok fetch (sortMsgs msgs) cs h, sortMsgs_perm msgs,
    sortMsgs_sorted msgs, fun t => sortMsgs_filter t msgs⟩

/-- Witness for C6 at two concrete out-of-order messages. -/
theorem ordering_invariant_witness :
    buildCore fetchHello
        [⟨2, none, none, some "b", [], []⟩, ⟨1, none, none, some "a", [], []⟩] =
      Except.ok [⟨"user", [GPart.text "a"]⟩, ⟨"user", [GPart.text "b"]⟩]
    ∧ ([⟨"user", [GPart.text "a"]⟩, ⟨"user", [GPart.text "b"]⟩] : List Content) =
        (sortMsgs [⟨2, none, none, some "b", [], []⟩,
            ⟨1, none, none, some "a", [], []⟩]).filterMap (fun m =>
          match msgParts fetchHello m with
          | Except.ok ps => if ps.isEmpty then none else some ⟨roleOf m, ps⟩
          | Except.error _ => none)
    ∧ (sortMsgs [⟨2, none, none, some "b", [], []⟩,
        ⟨1, none, none, some "a", [], []⟩]).Perm
        [⟨2, none, none, some "b", [], []⟩, ⟨1, none, none, some "a", [], []⟩]
    ∧ List.Pairwise (fun a b => a.ts ≤ b.ts)
        (sortMsgs [⟨2, none, none, some "b", [], []⟩,
          ⟨1, none, none, some "a", [], []⟩])
    ∧ (∀ t : Rat,
        (sortMsgs [⟨2, none, none, some "b", [], []⟩,
            ⟨1, none, none, some "a", [], []⟩]).filter
            (fun x => decide (x.ts = t)) =
          ([⟨2, none, none, some "b", [], []⟩,
            ⟨1, none, none, some "a", [], []⟩] : List ThreadMessage).filter
            (fun x => decide (x.ts = t))) := by
  have h := ordering_invariant fetchHello
    [⟨2, none, none, some "b", [], []⟩, ⟨1, none, none, some "a", [], []⟩]
    [⟨"user", [GPart.text "a"]⟩, ⟨"user", [GPart.text "b"]⟩] (by rfl)
  exact ⟨by rfl, h.1, h.2.1, h.2.2.1, h.2.2.2⟩

/-! ## C8: empty-thread fallback -/

theorem buildCoreAux_empty (fetch : String → Except String HttpResp) :
    ∀ l : List ThreadMessage, (∀ m ∈ l, msgParts fetch m = Except.ok []) →
      buildCoreAux fetch l = Except.ok [] := by
  intro l
  induction l with
  | nil => intro _; rfl
  | cons m rest ih =>
    intro h
    have hm := h m (List.mem_cons_self m rest)
    have hr := ih (fun x hx => h x (List.mem_cons_of_mem m hx))
    simp [buildCoreAux, hm, hr]

theorem buildCoreAux_no_empty (fetch : String → Except String HttpResp) :
    ∀ (l : List ThreadMessage) (cs : List Content),
      buildCoreAux fetch l = Except.ok cs → ∀ c ∈ cs, c.parts ≠ [] := by
  intro l
  induction l with
  | nil =>
    intro cs h c hc
    simp only [buildCoreAux, Except.ok.injEq] at h
    subst h
    simp at hc
  | cons m rest ih =>
    intro cs h c hc
    simp only [buildCoreAux] at h
    cases hm : msgParts fetch m with
    | error e => rw [hm] at h; simp at h
    | ok ps =>
      rw [hm] at h
      cases hr : buildCoreAux fetch rest with
      | error e => rw [hr] at h; simp at h
      | ok cs2 =>
        rw [hr] at h
        simp only [Except.ok.injEq] at h
        subst h
        by_cases hps : ps.isEmpty
        · rw [if_pos hps] at hc
          exact ih cs2 hr c hc
        · rw [if_neg hps] at hc
          rcases List.mem_cons.mp hc with rfl | hc2
          · simpa [List.isEmpty_iff] using hps
          · exact ih cs2 hr c hc2

/-- C8: for zero messages, or messages all yielding zero parts, assembly
returns exactly one turn — role "user" with the single text part
"(no content)" — and, in general, no turn in any successful assembly ever
has an empty part list. -/
theorem empty_thread_fallback (fetch : String → Except String HttpResp)
    (msgs : List ThreadMessage) :
    ((∀ m ∈ msgs, msgParts fetch m = Except.ok []) →
      buildContents fetch msgs =
        Except.ok [⟨"user", [GPart.text "(no content)"]⟩])
    ∧ (∀ cs, buildContents fetch msgs = Except.ok cs → ∀ c ∈ cs, c.parts ≠ []) := by
  constructor
  · intro h
    have hcore : buildCoreAux fetch (sortMsgs msgs) = Except.ok [] :=
      buildCoreAux_empty fetch (sortMsgs msgs)
        (fun m hm => h m ((sortMsgs_perm msgs).mem_iff.mp hm))
    simp [buildContents, buildCore, hcore]
  · intro cs h c hc
    unfold buildContents at h
    cases hb : buildCore fetch msgs with
    | error e => rw [hb] at h; simp at h
    | ok cs0 =>
      rw [hb] at h
      dsimp only at h
      by_cases h0 : cs0.isEmpty
      · rw [if_pos h0] at h
        simp only [Except.ok.injEq] at h
        subst h
        rcases List.mem_singleton.mp hc with rfl
        simp
      · rw [if_neg h0] at h
        simp only [Except.ok.injEq] at h
        subst h
        exact buildCoreAux_no_empty fetch (sortMsgs msgs) cs0 hb c hc

/-- Witness for C8 at one concrete message yielding no parts. -/
theorem empty_thread_fallback_witness :
    (∀ m ∈ ([⟨1, none, none, some "", [], []⟩] : List ThreadMessage),
      msgParts fetchHello m = Except.ok [])
    ∧ buildContents fetchHello [⟨1, none, none, some "", [], []⟩] =
        Except.ok [⟨"user", [GPart.text "(no content)"]⟩] := by
  have h : ∀ m ∈ ([⟨1, none, none, some "", [], []⟩] : List ThreadMessage),
      msgParts fetchHello m = Except.ok [] := by
    intro m hm
    rcases List.mem_singleton.mp hm with rfl
    rfl
  exact ⟨h, (empty_thread_fallback fetchHello [⟨1, none, none, some "", [], []⟩]).1 h⟩

/-! ## C1: fetch-failure propagation -/

/-- Whether some attachment of the message passes both the URL-presence
check and the admission test, so that the loop will attempt its fetch. -/
def hasAdmittedFile (m : ThreadMessage) : Bool :=
  m.files.any (fun f =>
    f.url_private_download.getD "" != "" && fileSupported (f.mimetype.getD ""))

/-- A fetch oracle that always fails with `"boom"`. -/
def fetchBoom : String → Except String HttpResp :=
  fun _ => Except.error "boom"

/-- A model-invocation oracle that always fails with `"quota"`. -/
def invokeQuota : List Content → Except String ModelResponse :=
  fun _ => Except.error "quota"

/-- A message carrying an admitted image attachment with a download URL. -/
def msgImg : ThreadMessage :=
  ⟨1, none, none, some "hi", [], [⟨some "image/png", some "u"⟩]⟩

theorem processFile_const (e : String) (f : SlackFile) :
    processFile (fun _ => Except.error e) f = Except.error e
    ∨ ∃ ps, processFile (fun _ => Except.error e) f = Except.ok ps := by
  unfold processFile
  by_cases hu : f.url_private_download.getD "" = ""
  · exact Or.inr ⟨[], by simp [hu]⟩
  · by_cases hs : fileSupported (f.mimetype.getD "") = true
    · exact Or.inl (by simp [hu, hs])
    · exact Or.inr ⟨[], by simp [hu, hs]⟩

theorem processFiles_const (e : String) : ∀ files : List SlackFile,
    processFiles (fun _ => Except.error e) files = Except.error e
    ∨ ∃ ps, processFiles (fun _ => Except.error e) files = Except.ok ps := by
  intro files
  induction files with
  | nil => exact Or.inr ⟨[], rfl⟩
  | cons f rest ih =>
    rcases processFile_const e f with hf | ⟨ps, hf⟩
    · exact Or.inl (by simp [processFiles, hf])
    · rcases ih with hr | ⟨rps, hr⟩
      · exact Or.inl (by simp [processFiles, hf, hr])
      · exact Or.inr ⟨ps ++ rps, by simp [processFiles, hf, hr]⟩

theorem processFiles_fail (e : String) : ∀ files : List SlackFile,
    (∃ f ∈ files, (f.url_private_download.getD "" != ""
      && fileSupported (f.mimetype.getD "")) = true) →
    processFiles (fun _ => Except.error e) files = Except.error e := by
  intro files
  induction files with
  | nil =>
    intro h
    simp at h
  | cons f rest ih =>
    intro h
    by_cases hf : (f.url_private_download.getD "" != ""
        && fileSupported (f.mimetype.getD "")) = true
    · have hand := (Bool.and_eq_true _ _).mp hf
      have hu : ¬(f.url_private_download.getD "" = "") := by
        simpa [bne_iff_ne] using hand.1
      have hpf : processFile (fun _ => Except.error e) f = Except.error e := by
        unfold processFile
        simp [hu, hand.2]
      simp [processFiles, hpf]
    · obtain ⟨g, hg, hgp⟩ := h
      rcases List.mem_cons.mp hg with rfl | hgrest
      · exact absurd hgp hf
      · have hrest := ih ⟨g, hgrest, hgp⟩
        rcases processFile_const e f with hpf | ⟨ps, hpf⟩
        · simp [processFiles, hpf]
        · simp [processFiles, hpf, hrest]

theorem msgParts_const (e : String) (m : ThreadMessage) :
    msgParts (fun _ => Except.error e) m = Except.error e
    ∨ ∃ ps, msgParts (fun _ => Except.error e) m = Except.ok ps := by
  unfold msgParts
  rcases processFiles_const e m.files with h | ⟨ps, h⟩
  · exact Or.inl (by rw [h])
  · exact Or.inr ⟨_, by rw [h]⟩

theorem msgParts_fail (e : String) (m : ThreadMessage)
    (h : hasAdmittedFile m = true) :
    msgParts (fun _ => Except.error e) m = Except.error e := by
  unfold msgParts
  rw [processFiles_fail e m.files
    (by simpa [hasAdmittedFile, List.any_eq_true] using h)]

theorem buildCoreAux_fail (e : String) : ∀ l : List ThreadMessage,
    (∃ m ∈ l, hasAdmittedFile m = true) →
    buildCoreAux (fun _ => Except.error e) l = Except.error e := by
  intro l
  induction l with
  | nil =>
    intro h
    simp at h
  | cons m rest ih =>
    intro h
    by_cases hm : hasAdmittedFile m = true
    · simp [buildCoreAux, msgParts_fail e m hm]
    · obtain ⟨g, hg, hgp⟩ := h
      rcases List.mem_cons.mp hg with rfl | hgrest
      · exact absurd hgp hm
      · have hrest := ih ⟨g, hgrest, hgp⟩
        rcases msgParts_const e m with hpm | ⟨ps, hpm⟩
        · simp [buildCoreAux, hpm]
        · simp [buildCoreAux, hpm, hrest]

theorem assembly_fetch_abort (e : String) (msgs : List ThreadMessage)
    (h : ∃ m ∈ msgs, hasAdmittedFile m = true) :
    buildContents (fun _ => Except.error e) msgs = Except.error e := by
  have hsort : ∃ m ∈ sortMsgs msgs, hasAdmittedFile m = true := by
    obtain ⟨m, hm, hp⟩ := h
    exact ⟨m, (sortMsgs_perm msgs).mem_iff.mpr hm, hp⟩
  have hcore := buildCoreAux_fail e (sortMsgs msgs) hsort
  simp [buildContents, buildCore, hcore]

/-- C1 counterexample: under an always-failing fetch oracle, a thread whose
single message carries an admitted image attachment makes the embedded
`handle_mention` return the propagated fetch failure itself — an
`Except.error` surfacing past the handler — rather than a user-visible
reply, because `_build_contents_from_thread` is called outside the `try`
block that converts Gemini failures. -/
theorem fetch_failure_counterexample :
    handleMention fetchBoom invokeQuota [msgImg] = Except.error "boom" := by rfl

/-- C1 (amended): an attachment fetch failure aborts the entire assembly
with a propagated failure, and a failure of the model invocation is caught
and converted into a single user-visible error reply; but the assembly
failure itself is not caught by the orchestration layer — it propagates to
the transport layer unchanged. -/
theorem fetch_failure_amended (fetch : String → Except String HttpResp)
    (invoke : List Content → Except String ModelResponse)
    (msgs : List ThreadMessage) (e : String) :
    (buildContents fetch msgs = Except.error e →
      handleMention fetch invoke msgs = Except.error e)
    ∧ (∀ contents, buildContents fetch msgs = Except.ok contents →
        invoke contents = Except.error e →
        handleMention fetch invoke msgs =
          Except.ok
            ⟨postprocessChunks (splitText ("Error from Gemini: " ++ e) 3000) [],
              []⟩)
    ∧ ((∃ m ∈ msgs, hasAdmittedFile m = true) →
        buildContents (fun _ => Except.error e) msgs = Except.error e) := by
  refine ⟨?_, ?_, fun h => assembly_fetch_abort e msgs h⟩
  · intro h
    simp [handleMention, h]
  · intro contents h1 h2
    simp [handleMention, h1, h2]

/-- Witness for the amended C1, applying it at concrete oracles: a failing
fetch propagates, a failing model call is converted into the error reply,
and a failing fetch with an admitted attachment aborts assembly. -/
theorem fetch_failure_amended_witness :
    (buildContents fetchBoom [msgImg] = Except.error "boom"
      ∧ handleMention fetchBoom invokeQuota [msgImg] = Except.error "boom")
    ∧ (buildContents fetchHello [⟨1, none, none, some "hi", [], []⟩] =
          Except.ok [⟨"user", [GPart.text "hi"]⟩]
      ∧ invokeQuota [⟨"user", [GPart.text "hi"]⟩] = Except.error "quota"
      ∧ handleMention fetchHello invokeQuota [⟨1, none, none, some "hi", [], []⟩] =
          Except.ok
            ⟨postprocessChunks (splitText ("Error from Gemini: " ++ "quota") 3000)
                [], []⟩)
    ∧ ((∃ m ∈ [msgImg], hasAdmittedFile m = true)
      ∧ buildContents (fun _ => Except.error "boom") [msgImg] =
          Except.error "boom") := by
  refine ⟨⟨by rfl, ?_⟩, ⟨by rfl, by rfl, ?_⟩, ⟨by decide, ?_⟩⟩
  · exact (fetch_failure_amended fetchBoom invokeQuota [msgImg] "boom").1 (by rfl)
  · exact (fetch_failure_amended fetchHello invokeQuota
      [⟨1, none, none, some "hi", [], []⟩] "quota").2.1
      [⟨"user", [GPart.text "hi"]⟩] (by rfl) (by rfl)
  · exact (fetch_failure_amended fetchBoom invokeQuota [msgImg] "boom").2.2
      (by decide)
